import Mathlib

/-!
Shallow embedding of `dvc94ch/sudoku` (`src/lib.rs`), a 9×9 sudoku
representation and brute-force backtracking solver, together with proofs
about the claims of the specification.

Modelling conventions:
* Rust `u8` values are modelled as `Nat` (`Value` keeps the invariant
  `≤ 9` that the private constructor of `Value(u8)` enforces: `Value::new`
  rejects anything above 9, and all values stored in a board come from
  `Value::new`, `Default` or the parser).
* The 81-cell array `cells: [Value; 81]` is modelled as `Fin 81 → Value`.
* A Rust panic (out-of-bounds slice index, or `unwrap` on `Err`) is
  modelled by `Option`: `none` is a panic.  Hence `Sudoku.get` returns
  `Option Value`, `backtrack` returns `Option (Option Sudoku)` (outer
  `none` = panic, `some none` = "no solution", `some (some s)` = solved),
  and parsing returns `Option (Except Err Sudoku)`.
* Rust recursion has no fuel; `backtrack` is given fuel `82` in `solve`,
  and we prove (claim C6) that this fuel is never exhausted and no panic
  is reachable from `solve`, so the model agrees with the source.
* Text (`&str`) is modelled as `List Nat` of Unicode code points:
  `10 = newline`, `32 = space`, `48 = digit zero`, `49..57 = digits 1-9`.
-/

/-- `Value(u8)` of the source: a digit `0..=9`, where `0` means
"not final" (a blank cell) and `1..=9` is a fixed digit.  The field is
private in Rust and every constructor keeps it `≤ 9`. -/
abbrev Value := {n : Nat // n ≤ 9}

/-- The error conditions of the source (`anyhow` errors): the
`bail!("invalid value")` in `Value::new`, the `bail!("value out of range")`
in `Value::from_str`, and the `ParseIntError` of `str::parse::<u8>`. -/
inductive Err where
  | invalidValue
  | valueOutOfRange
  | parseFailure
deriving DecidableEq, Repr

/-- `Value::new`: fails exactly when the argument is greater than 9. -/
def Value.new (v : Nat) : Except Err Value :=
  if h : 9 < v then .error .invalidValue else .ok ⟨v, by omega⟩

/-- `Value::is_final`: the stored digit is non-zero. -/
def Value.is_final (v : Value) : Bool := decide (0 < v.val)

/-- `Value::default()`: `Value::new(0).unwrap()`, the blank cell. -/
def Value.blank : Value := ⟨0, by omega⟩

/-- `Sudoku`: a fixed array of 81 cells, row-major
(`cells[x * 9 + y]` is row `x`, column `y`). -/
structure Sudoku where
  cells : Fin 81 → Value

instance : DecidableEq Sudoku := fun a b =>
  if h : a.cells = b.cells then
    isTrue (by cases a; cases b; cases h; rfl)
  else isFalse (fun e => h (congrArg Sudoku.cells e))

/-- A `DecidableEq` for `Option` whose result never hides behind an
`Eq.rec`, so that equalities of computed solver results reduce in the
kernel. -/
instance (priority := 2000) optionDecEq {α : Type} [DecidableEq α] :
    DecidableEq (Option α) := fun a b =>
  match a, b with
  | none, none => isTrue rfl
  | none, some _ => isFalse (fun e => Option.noConfusion e)
  | some _, none => isFalse (fun e => Option.noConfusion e)
  | some x, some y =>
    if h : x = y then isTrue (by rw [h])
    else isFalse (fun e => h (Option.some.inj e))

/-- A kernel-friendly `DecidableEq` for `Except`. -/
instance (priority := 2000) exceptDecEq {ε α : Type} [DecidableEq ε]
    [DecidableEq α] : DecidableEq (Except ε α) := fun a b =>
  match a, b with
  | .ok x, .ok y =>
    if h : x = y then isTrue (by rw [h])
    else isFalse (fun e => h (by cases e; rfl))
  | .error x, .error y =>
    if h : x = y then isTrue (by rw [h])
    else isFalse (fun e => h (by cases e; rfl))
  | .ok _, .error _ => isFalse (fun e => Except.noConfusion e)
  | .error _, .ok _ => isFalse (fun e => Except.noConfusion e)

/-- `Sudoku::new()`: every cell is the default (blank) value. -/
def Sudoku.new : Sudoku := ⟨fun _ => Value.blank⟩

/-- Write the cell at a (known in-range) flat index. -/
def Sudoku.setFlat (s : Sudoku) (i : Fin 81) (v : Value) : Sudoku :=
  ⟨fun j => if j = i then v else s.cells j⟩

/-- `Sudoku::get(x, y)`: reads `cells[x * 9 + y]`; `none` models the
panic of an out-of-bounds index. -/
def Sudoku.get (s : Sudoku) (x y : Nat) : Option Value :=
  if h : x * 9 + y < 81 then some (s.cells ⟨x * 9 + y, h⟩) else none

/-- `Sudoku::set(x, y, value)`: writes `cells[x * 9 + y]`; `none` models
the panic of an out-of-bounds index. -/
def Sudoku.set (s : Sudoku) (x y : Nat) (v : Value) : Option Sudoku :=
  if h : x * 9 + y < 81 then some (s.setFlat ⟨x * 9 + y, h⟩ v) else none

/-- The cell at a coordinate pair, defaulting to blank out of range; used
only to state properties (the hypotheses always put it in range). -/
def Sudoku.cellD (s : Sudoku) (p : Nat × Nat) : Value :=
  (s.get p.1 p.2).getD Value.blank

/-- The `Solution` enum of the source. -/
inductive Solution where
  | Valid
  | Invalid
  | Incomplete
deriving DecidableEq, Repr

/-- `row_iter(row)`: the coordinates `(row, 0) .. (row, 8)`. -/
def row_iter (row : Nat) : List (Nat × Nat) :=
  (List.range 9).map (fun field => (row, field))

/-- `col_iter(col)`: the coordinates `(0, col) .. (8, col)`. -/
def col_iter (col : Nat) : List (Nat × Nat) :=
  (List.range 9).map (fun field => (field, col))

/-- `block_iter(block)`: the base sequence
`(0,0),(0,1),(0,2),(1,0),(1,1),(1,2),(2,0),(2,1),(2,2)` built by
`repeat(0).zip(0..3).chain(...)`, shifted by
`offset = ((block % 3) * 3, (block / 3) * 3)`. -/
def block_iter (block : Nat) : List (Nat × Nat) :=
  [(0,0),(0,1),(0,2),(1,0),(1,1),(1,2),(2,0),(2,1),(2,2)].map
    (fun p => (p.1 + (block % 3) * 3, p.2 + (block / 3) * 3))

/-- `Sudoku::validate_group` loop body: walks the coordinates keeping the
`values: [bool; 10]` seen-array; returns `Invalid` as soon as a final
value repeats, else classifies by whether a blank (`values[0]`) was seen.
`none` models the panic of an out-of-range `get`. -/
def Sudoku.vgAux (s : Sudoku) (seen : Nat → Bool) :
    List (Nat × Nat) → Option Solution
  | [] => some (if seen 0 then .Incomplete else .Valid)
  | p :: rest =>
    match s.get p.1 p.2 with
    | none => none
    | some v =>
      if 0 < v.val ∧ seen v.val = true then some .Invalid
      else s.vgAux (fun j => if j = v.val then true else seen j) rest

/-- `Sudoku::validate_group(iter)`, with the seen-array initially all
false. -/
def Sudoku.validate_group (s : Sudoku) (coords : List (Nat × Nat)) :
    Option Solution :=
  s.vgAux (fun _ => false) coords

/-- The groups visited by the `for i in 0..9` loop of
`Sudoku::validate`, in visit order: for each index `i` starting at `i0`
(with `n` indices remaining) the row, column and block group. -/
def groupsFrom : Nat → Nat → List (List (Nat × Nat))
  | 0, _ => []
  | n + 1, i => row_iter i :: col_iter i :: block_iter i :: groupsFrom n (i + 1)

/-- All 27 groups checked by `Sudoku::validate`:
row 0, column 0, block 0, row 1, ... -/
def allGroups : List (List (Nat × Nat)) := groupsFrom 9 0

/-- `Sudoku::validate` loop, linearised over its sequence of groups:
each group is classified in turn; `Invalid` returns immediately, the
`incomplete` flag records whether any group so far was `Incomplete`. -/
def Sudoku.validateGo (s : Sudoku) : List (List (Nat × Nat)) → Bool →
    Option Solution
  | [], inc => some (if inc then .Incomplete else .Valid)
  | g :: gs, inc =>
    match s.validate_group g with
    | none => none
    | some .Invalid => some .Invalid
    | some r => s.validateGo gs (inc || decide (r = .Incomplete))

/-- `Sudoku::validate()`: classify all 27 groups. -/
def Sudoku.validate (s : Sudoku) : Option Solution :=
  s.validateGo allGroups false

/-- `Sudoku::valid()`: `validate() == Solution::Valid`. -/
def Sudoku.valid (s : Sudoku) : Option Bool :=
  (s.validate).map (fun r => decide (r = Solution.Valid))

/-- The `while root.cells[level].is_final() { level += 1 }` loop of
`backtrack`, with the structural counter `n = 81 - level` (so that the
definition reduces by kernel computation): the loop stops at the first
non-final cell at or after `level`; `none` models the panic of the array
access once `level` leaves the array. -/
def Sudoku.advanceAux (s : Sudoku) : Nat → Nat → Option (Fin 81)
  | 0, _ => none
  | n + 1, level =>
    if h : level < 81 then
      if (s.cells ⟨level, h⟩).is_final then s.advanceAux n (level + 1)
      else some ⟨level, h⟩
    else none

/-- The cursor-advance loop of `backtrack`: first non-final index at or
after `level`, `none` = panic.  (With `n = 81 - level` the counter of
`advanceAux` only runs out at `level = 81`, where the loop panics
anyway, so this is exactly the `while` loop of the source.) -/
def Sudoku.advance (s : Sudoku) (level : Nat) : Option (Fin 81) :=
  s.advanceAux (82 - level) level

/-- The digits `1..=9` tried by `backtrack`, as `Value`s
(`Value::new(v).unwrap()` cannot panic for `v` in `1..=9`). -/
def solverDigits : List Value :=
  [⟨1, by omega⟩, ⟨2, by omega⟩, ⟨3, by omega⟩, ⟨4, by omega⟩,
   ⟨5, by omega⟩, ⟨6, by omega⟩, ⟨7, by omega⟩, ⟨8, by omega⟩,
   ⟨9, by omega⟩]

/-- The `for v in 1..=9` loop of `backtrack`: try each digit at cell `l`,
recursing via `bt`; first success wins, a panic (`none`) propagates. -/
def tryDigits (bt : Sudoku → Nat → Option (Option Sudoku))
    (root : Sudoku) (l : Fin 81) : List Value → Option (Option Sudoku)
  | [] => some none
  | v :: vs =>
    match bt (root.setFlat l v) (l.val + 1) with
    | none => none
    | some (some sol) => some (some sol)
    | some none => tryDigits bt root l vs

/-- `backtrack(root, level)` with explicit fuel (the Rust recursion is
unbounded; claim C6 proves fuel 82 is never exhausted).  Outer `none`
models a panic (either fuel exhaustion, a `validate` panic, or the
cursor loop running past the array). -/
def backtrack : Nat → Sudoku → Nat → Option (Option Sudoku)
  | 0, _, _ => none
  | fuel + 1, root, level =>
    match root.validate with
    | none => none
    | some .Valid => some (some root)
    | some .Invalid => some none
    | some .Incomplete =>
      match root.advance level with
      | none => none
      | some l => tryDigits (backtrack fuel) root l solverDigits

/-- `solve(sudoku)`: `backtrack(sudoku, 0)`. -/
def solve (s : Sudoku) : Option (Option Sudoku) :=
  backtrack 82 s 0

/-- `"c".parse::<u8>()` on a list of code points: every character must be
a decimal digit (code `48..=57`), the result must fit in `u8`.  (Rust
also accepts a leading `+`, which never reaches this code path: the
sudoku parser only ever parses single characters.) -/
def parseU8 (str : List Nat) : Except Err Nat :=
  if str ≠ [] ∧ ∀ c ∈ str, 48 ≤ c ∧ c ≤ 57 then
    let n := str.foldl (fun acc c => acc * 10 + (c - 48)) 0
    if n ≤ 255 then .ok n else .error .parseFailure
  else .error .parseFailure

/-- `Value::from_str`: a single space is the blank value, otherwise parse
as `u8`, reject zero, then `Value::new`. -/
def Value.from_chars (str : List Nat) : Except Err Value :=
  if str = [32] then .ok Value.blank
  else
    match parseU8 str with
    | .error e => .error e
    | .ok n => if n = 0 then .error .valueOutOfRange else Value.new n

/-- `str::split('\n')` on code points: the (always non-empty) list of
newline-separated chunks. -/
def splitNl : List Nat → List (List Nat)
  | [] => [[]]
  | c :: rest =>
    match splitNl rest with
    | [] => [[c]]
    | l :: ls => if c = 10 then [] :: l :: ls else (c :: l) :: ls

/-- Inner loop of `Sudoku::from_str`: scan the characters of row `x`
with column counter `y`, skipping spaces, parsing every other character
with `Value::from_str` (the `?` propagates its error) and storing it
with `Sudoku::set` (whose out-of-bounds panic is the outer `none`). -/
def parseRowGo (x : Nat) : List Nat → Nat → Sudoku →
    Option (Except Err Sudoku)
  | [], _, s => some (.ok s)
  | c :: cs, y, s =>
    if c = 32 then parseRowGo x cs (y + 1) s
    else
      match Value.from_chars [c] with
      | .error e => some (.error e)
      | .ok v =>
        match s.set x y v with
        | none => none
        | some s1 => parseRowGo x cs (y + 1) s1

/-- Outer loop of `Sudoku::from_str`: scan the lines with row counter
`x`. -/
def parseLinesGo : List (List Nat) → Nat → Sudoku →
    Option (Except Err Sudoku)
  | [], _, s => some (.ok s)
  | row :: rows, x, s =>
    match parseRowGo x row 0 s with
    | none => none
    | some (.error e) => some (.error e)
    | some (.ok s1) => parseLinesGo rows (x + 1) s1

/-- `Sudoku::from_str` on code points: start from `Sudoku::new()` and
fill in every non-space character of every line. -/
def Sudoku.from_chars (input : List Nat) : Option (Except Err Sudoku) :=
  parseLinesGo (splitNl input) 0 Sudoku.new

/-- `Display for Value` as a code point: the digit if final, else a
space. -/
def Value.toChar (v : Value) : Nat :=
  if 0 < v.val then 48 + v.val else 32

/-- The characters written by `Display for Sudoku` for row `x`, columns
`y`, `y+1`, ... (`n` columns remain).  The formatter calls `get(x, y)`
only for `x, y` in `0..9`, where it cannot panic, so the cells are read
with the total `cellD`. -/
def Sudoku.rowCharsFrom (s : Sudoku) (x : Nat) : Nat → Nat → List Nat
  | 0, _ => []
  | n + 1, y => (s.cellD (x, y)).toChar :: s.rowCharsFrom x n (y + 1)

/-- The characters written by `Display for Sudoku` for rows `x`, `x+1`,
... (`n` rows remain): each row's nine cells followed by a newline. -/
def Sudoku.displayFrom (s : Sudoku) : Nat → Nat → List Nat
  | 0, _ => []
  | n + 1, x => s.rowCharsFrom x 9 0 ++ 10 :: s.displayFrom n (x + 1)

/-- `Display for Sudoku`: nine rows of nine characters, each row
newline-terminated. -/
def Sudoku.display (s : Sudoku) : List Nat := s.displayFrom 9 0

/-- Build a board from a row-major list of digits (`0` = blank); used
for the concrete boards of the witnesses. -/
def mkBoard (l : List Nat) : Sudoku :=
  ⟨fun i => if h : l.getD i.val 0 ≤ 9 then ⟨l.getD i.val 0, h⟩ else Value.blank⟩

/-- The fully solved grid used by the source's own `test_validate_sudoku`
test. -/
def solvedGrid : Sudoku := mkBoard
  [5,3,4,6,7,8,9,1,2,
   6,7,2,1,9,5,3,4,8,
   1,9,8,3,4,2,5,6,7,
   8,5,9,7,6,1,4,2,3,
   4,2,6,8,5,3,7,9,1,
   7,1,3,9,2,4,8,5,6,
   9,6,1,5,3,7,2,8,4,
   2,8,7,4,1,9,6,3,5,
   3,4,5,2,8,6,1,7,9]

/-- `solvedGrid` with its first cell blanked: a solvable puzzle. -/
def nearlySolvedGrid : Sudoku := mkBoard
  [0,3,4,6,7,8,9,1,2,
   6,7,2,1,9,5,3,4,8,
   1,9,8,3,4,2,5,6,7,
   8,5,9,7,6,1,4,2,3,
   4,2,6,8,5,3,7,9,1,
   7,1,3,9,2,4,8,5,6,
   9,6,1,5,3,7,2,8,4,
   2,8,7,4,1,9,6,3,5,
   3,4,5,2,8,6,1,7,9]

/-- An unsolvable board: two forced 1s at the start of the first row. -/
def clashBoard : Sudoku := mkBoard [1, 1]

/-- A total assignment extending `clashBoard` (all cells 1). -/
def allOnesBoard : Sudoku := mkBoard (List.replicate 81 1)

/-! ### Basic lemmas about cells, boards and the cursor loop -/

theorem Sudoku.ext_cells {a b : Sudoku} (h : ∀ i, a.cells i = b.cells i) :
    a = b := by
  cases a; cases b
  simp only [Sudoku.mk.injEq]
  funext i
  exact h i

theorem Sudoku.get_eq_some {s : Sudoku} {x y : Nat} (h : x * 9 + y < 81) :
    s.get x y = some (s.cells ⟨x * 9 + y, h⟩) := by
  simp [Sudoku.get, h]

theorem Sudoku.cellD_eq {s : Sudoku} {p : Nat × Nat}
    (h : p.1 * 9 + p.2 < 81) : s.cellD p = s.cells ⟨p.1 * 9 + p.2, h⟩ := by
  simp [Sudoku.cellD, Sudoku.get, h]

theorem Sudoku.get_eq_cellD {s : Sudoku} {p : Nat × Nat}
    (h : p.1 * 9 + p.2 < 81) : s.get p.1 p.2 = some (s.cellD p) := by
  rw [Sudoku.get_eq_some h, Sudoku.cellD_eq h]

theorem Sudoku.setFlat_same (s : Sudoku) (i : Fin 81) (v : Value) :
    (s.setFlat i v).cells i = v := by
  simp [Sudoku.setFlat]

theorem Sudoku.setFlat_other (s : Sudoku) {i j : Fin 81} (v : Value)
    (h : j ≠ i) : (s.setFlat i v).cells j = s.cells j := by
  simp [Sudoku.setFlat, h]

theorem Value.is_final_iff {v : Value} : v.is_final = true ↔ 0 < v.val := by
  simp [Value.is_final]

/-- If the cursor loop stops at `l`, then `l` is at or after the start,
the cell there is blank, and every cell from the start up to `l` is
final. -/
theorem Sudoku.advanceAux_spec (s : Sudoku) :
    ∀ (n level : Nat) (l : Fin 81), s.advanceAux n level = some l →
      level ≤ l.val ∧ (s.cells l).val = 0 ∧
        ∀ j : Fin 81, level ≤ j.val → j.val < l.val → 0 < (s.cells j).val := by
  intro n
  induction n with
  | zero => intro level l h; simp [Sudoku.advanceAux] at h
  | succ n ih =>
    intro level l h
    rw [Sudoku.advanceAux] at h
    by_cases hb : level < 81
    · rw [dif_pos hb] at h
      by_cases hf : (s.cells ⟨level, hb⟩).is_final
      · rw [if_pos hf] at h
        obtain ⟨h1, h2, h3⟩ := ih (level + 1) l h
        refine ⟨by omega, h2, ?_⟩
        intro j hj1 hj2
        by_cases hj : j.val = level
        · have : j = ⟨level, hb⟩ := Fin.ext hj
          rw [this]
          exact Value.is_final_iff.mp hf
        · exact h3 j (by omega) hj2
      · rw [if_neg hf] at h
        obtain rfl := Option.some.inj h
        refine ⟨le_refl _, ?_, ?_⟩
        · have hv : ¬ 0 < (s.cells ⟨level, hb⟩).val := by
            simpa [Value.is_final] using hf
          omega
        · intro j hj1 hj2
          simp only [] at hj2
          omega
    · rw [dif_neg hb] at h
      exact absurd h (by simp)

theorem Sudoku.advance_spec {s : Sudoku} {level : Nat} {l : Fin 81}
    (h : s.advance level = some l) :
    level ≤ l.val ∧ (s.cells l).val = 0 ∧
      ∀ j : Fin 81, level ≤ j.val → j.val < l.val → 0 < (s.cells j).val :=
  s.advanceAux_spec _ level l h

/-- If some cell at or after `level` is blank, the cursor loop does not
run off the array. -/
theorem Sudoku.advanceAux_total (s : Sudoku) :
    ∀ (n level : Nat), (∃ i : Fin 81, level ≤ i.val ∧ (s.cells i).val = 0) →
      81 ≤ n + level → ∃ l, s.advanceAux n level = some l := by
  intro n
  induction n with
  | zero =>
    intro level ⟨i, hi1, _⟩ hn
    have := i.isLt
    omega
  | succ n ih =>
    intro level hex hn
    obtain ⟨i, hi1, hi2⟩ := hex
    have hb : level < 81 := by have := i.isLt; omega
    rw [Sudoku.advanceAux, dif_pos hb]
    by_cases hf : (s.cells ⟨level, hb⟩).is_final
    · rw [if_pos hf]
      refine ih (level + 1) ⟨i, ?_, hi2⟩ (by omega)
      have hne : i ≠ ⟨level, hb⟩ := by
        intro e
        rw [e] at hi2
        have := Value.is_final_iff.mp hf
        omega
      have : i.val ≠ level := fun e => hne (Fin.ext e)
      omega
    · rw [if_neg hf]
      exact ⟨_, rfl⟩

theorem Sudoku.advance_total {s : Sudoku} {level : Nat}
    (h : ∃ i : Fin 81, level ≤ i.val ∧ (s.cells i).val = 0) :
    ∃ l, s.advance level = some l :=
  s.advanceAux_total _ level h (by omega)

theorem solverDigits_pos : ∀ v ∈ solverDigits, 0 < v.val := by decide

theorem mem_solverDigits {v : Value} (h : 0 < v.val) : v ∈ solverDigits := by
  obtain ⟨n, hn⟩ := v
  simp only at h
  interval_cases n <;> first | omega | simp [solverDigits]

/-! ### Characterisation of `validate_group` -/

theorem Sudoku.vgAux_some (s : Sudoku) :
    ∀ (coords : List (Nat × Nat)), (∀ p ∈ coords, p.1 * 9 + p.2 < 81) →
      ∀ seen, ∃ r, s.vgAux seen coords = some r := by
  intro coords
  induction coords with
  | nil => intro _ seen; exact ⟨_, rfl⟩
  | cons p rest ih =>
    intro hb seen
    have hp : p.1 * 9 + p.2 < 81 := hb p (by simp)
    simp only [Sudoku.vgAux, Sudoku.get_eq_cellD hp]
    by_cases hc : 0 < (s.cellD p).val ∧ seen (s.cellD p).val = true
    · rw [if_pos hc]; exact ⟨_, rfl⟩
    · rw [if_neg hc]
      exact ih (fun q hq => hb q (by simp [hq])) _

/-- A run of the `validate_group` loop returns `Invalid` exactly when
some visited cell is final and its value was seen before it — either
already marked in the incoming seen-array, or belonging to an earlier
cell of the group. -/
theorem Sudoku.vgAux_invalid_iff (s : Sudoku) :
    ∀ (coords : List (Nat × Nat)), (∀ p ∈ coords, p.1 * 9 + p.2 < 81) →
      ∀ seen, (s.vgAux seen coords = some .Invalid ↔
        ∃ l₁ p l₂, coords = l₁ ++ p :: l₂ ∧ 0 < (s.cellD p).val ∧
          (seen (s.cellD p).val = true ∨
            ∃ q ∈ l₁, (s.cellD q).val = (s.cellD p).val)) := by
  intro coords
  induction coords with
  | nil =>
    intro _ seen
    constructor
    · intro h
      by_cases hs : seen 0 = true <;> simp [Sudoku.vgAux, hs] at h
    · rintro ⟨l₁, p, l₂, he, _⟩
      exact absurd he (by simp)
  | cons p rest ih =>
    intro hb seen
    have hp : p.1 * 9 + p.2 < 81 := hb p (by simp)
    have hrest : ∀ q ∈ rest, q.1 * 9 + q.2 < 81 :=
      fun q hq => hb q (by simp [hq])
    simp only [Sudoku.vgAux, Sudoku.get_eq_cellD hp]
    by_cases hc : 0 < (s.cellD p).val ∧ seen (s.cellD p).val = true
    · rw [if_pos hc]
      constructor
      · intro _
        exact ⟨[], p, rest, rfl, hc.1, Or.inl hc.2⟩
      · intro _; rfl
    · rw [if_neg hc, ih hrest]
      constructor
      · rintro ⟨l₁, c, l₂, he, hpos, hor⟩
        refine ⟨p :: l₁, c, l₂, by rw [he, List.cons_append], hpos, ?_⟩
        rcases hor with hseen | ⟨q, hq, hval⟩
        · by_cases hvc : (s.cellD c).val = (s.cellD p).val
          · exact Or.inr ⟨p, by simp, hvc.symm⟩
          · rw [if_neg hvc] at hseen
            exact Or.inl hseen
        · exact Or.inr ⟨q, by simp [hq], hval⟩
      · rintro ⟨l₁, c, l₂, he, hpos, hor⟩
        cases l₁ with
        | nil =>
          simp only [List.nil_append, List.cons.injEq] at he
          obtain ⟨rfl, rfl⟩ := he
          rcases hor with hseen | ⟨q, hq, _⟩
          · exact absurd ⟨hpos, hseen⟩ hc
          · exact absurd hq (List.not_mem_nil q)
        | cons a l₁ =>
          rw [List.cons_append] at he
          simp only [List.cons.injEq] at he
          obtain ⟨rfl, he2⟩ := he
          refine ⟨l₁, c, l₂, he2, hpos, ?_⟩
          rcases hor with hseen | ⟨q, hq, hval⟩
          · by_cases hvc : (s.cellD c).val = (s.cellD p).val
            · exact Or.inl (by rw [if_pos hvc])
            · exact Or.inl (by rw [if_neg hvc]; exact hseen)
          · rcases List.mem_cons.mp hq with rfl | hql
            · exact Or.inl (by rw [if_pos hval.symm])
            · exact Or.inr ⟨q, hql, hval⟩

/-- A non-`Invalid` run of the `validate_group` loop returns
`Incomplete` exactly when a blank was recorded: either already in the
incoming seen-array or as a blank cell of the group. -/
theorem Sudoku.vgAux_incomplete_iff (s : Sudoku) :
    ∀ (coords : List (Nat × Nat)), (∀ p ∈ coords, p.1 * 9 + p.2 < 81) →
      ∀ seen, s.vgAux seen coords ≠ some .Invalid →
      (s.vgAux seen coords = some .Incomplete ↔
        (seen 0 = true ∨ ∃ p ∈ coords, (s.cellD p).val = 0)) := by
  intro coords
  induction coords with
  | nil =>
    intro _ seen _
    by_cases hs : seen 0 = true <;> simp [Sudoku.vgAux, hs]
  | cons p rest ih =>
    intro hb seen hni
    have hp : p.1 * 9 + p.2 < 81 := hb p (by simp)
    have hrest : ∀ q ∈ rest, q.1 * 9 + q.2 < 81 :=
      fun q hq => hb q (by simp [hq])
    simp only [Sudoku.vgAux, Sudoku.get_eq_cellD hp] at hni ⊢
    by_cases hc : 0 < (s.cellD p).val ∧ seen (s.cellD p).val = true
    · rw [if_pos hc] at hni
      exact absurd rfl hni
    · rw [if_neg hc] at hni ⊢
      rw [ih hrest _ hni]
      by_cases hv : (s.cellD p).val = 0
      · have h0 : (0 = (s.cellD p).val) = True := by simp [hv]
        simp [h0, hv]
      · have h0 : ¬ (0 = (s.cellD p).val) := fun e => hv e.symm
        simp [h0, hv]

theorem Sudoku.validate_group_some {s : Sudoku} {coords : List (Nat × Nat)}
    (hb : ∀ p ∈ coords, p.1 * 9 + p.2 < 81) :
    ∃ r, s.validate_group coords = some r :=
  s.vgAux_some coords hb _

/-- `validate_group` is `Invalid` iff the group splits around a final
cell whose value already occurred earlier in the group. -/
theorem Sudoku.validate_group_invalid_iff {s : Sudoku}
    {coords : List (Nat × Nat)} (hb : ∀ p ∈ coords, p.1 * 9 + p.2 < 81) :
    s.validate_group coords = some .Invalid ↔
      ∃ l₁ p l₂, coords = l₁ ++ p :: l₂ ∧ 0 < (s.cellD p).val ∧
        ∃ q ∈ l₁, (s.cellD q).val = (s.cellD p).val := by
  rw [Sudoku.validate_group, s.vgAux_invalid_iff coords hb]
  constructor
  · rintro ⟨l₁, p, l₂, he, hpos, hor⟩
    rcases hor with hseen | hq
    · exact absurd hseen (by simp)
    · exact ⟨l₁, p, l₂, he, hpos, hq⟩
  · rintro ⟨l₁, p, l₂, he, hpos, hq⟩
    exact ⟨l₁, p, l₂, he, hpos, Or.inr hq⟩

/-- A non-`Invalid` `validate_group` is `Incomplete` iff the group has a
blank cell. -/
theorem Sudoku.validate_group_incomplete_iff {s : Sudoku}
    {coords : List (Nat × Nat)} (hb : ∀ p ∈ coords, p.1 * 9 + p.2 < 81)
    (hni : s.validate_group coords ≠ some .Invalid) :
    s.validate_group coords = some .Incomplete ↔
      ∃ p ∈ coords, (s.cellD p).val = 0 := by
  rw [Sudoku.validate_group, s.vgAux_incomplete_iff coords hb _ hni]
  simp

/-! ### Characterisation of `validate` -/

theorem allGroups_bounds : ∀ g ∈ allGroups, ∀ p ∈ g, p.1 * 9 + p.2 < 81 := by
  decide

theorem Sudoku.validateGo_some (s : Sudoku) :
    ∀ (gs : List (List (Nat × Nat))),
      (∀ g ∈ gs, ∀ p ∈ g, p.1 * 9 + p.2 < 81) →
      ∀ inc, ∃ r, s.validateGo gs inc = some r := by
  intro gs
  induction gs with
  | nil => intro _ inc; exact ⟨_, rfl⟩
  | cons g rest ih =>
    intro hb inc
    have hrest : ∀ g1 ∈ rest, ∀ p ∈ g1, p.1 * 9 + p.2 < 81 :=
      fun g1 hg1 => hb g1 (List.mem_cons_of_mem _ hg1)
    obtain ⟨r, hr⟩ := s.validate_group_some (hb g (by simp))
    cases r with
    | Invalid => exact ⟨.Invalid, by simp [Sudoku.validateGo, hr]⟩
    | Valid =>
      obtain ⟨r2, h2⟩ := ih hrest inc
      exact ⟨r2, by simpa [Sudoku.validateGo, hr] using h2⟩
    | Incomplete =>
      obtain ⟨r2, h2⟩ := ih hrest true
      exact ⟨r2, by simpa [Sudoku.validateGo, hr] using h2⟩

theorem Sudoku.validateGo_invalid_iff (s : Sudoku) :
    ∀ (gs : List (List (Nat × Nat))),
      (∀ g ∈ gs, ∀ p ∈ g, p.1 * 9 + p.2 < 81) →
      ∀ inc, (s.validateGo gs inc = some .Invalid ↔
        ∃ g ∈ gs, s.validate_group g = some .Invalid) := by
  intro gs
  induction gs with
  | nil =>
    intro _ inc
    cases inc <;> simp [Sudoku.validateGo]
  | cons g rest ih =>
    intro hb inc
    have hrest : ∀ g1 ∈ rest, ∀ p ∈ g1, p.1 * 9 + p.2 < 81 :=
      fun g1 hg1 => hb g1 (List.mem_cons_of_mem _ hg1)
    obtain ⟨r, hr⟩ := s.validate_group_some (hb g (by simp))
    cases r with
    | Invalid =>
      simp only [Sudoku.validateGo, hr]
      constructor
      · intro _; exact ⟨g, by simp, hr⟩
      · intro _; trivial
    | Valid =>
      have hred : s.validateGo (g :: rest) inc = s.validateGo rest inc := by
        simp [Sudoku.validateGo, hr]
      rw [hred, ih hrest inc]
      constructor
      · rintro ⟨g0, hg0, hi⟩
        exact ⟨g0, List.mem_cons_of_mem _ hg0, hi⟩
      · rintro ⟨g0, hg0, hi⟩
        rcases List.mem_cons.mp hg0 with rfl | hg0r
        · rw [hr] at hi
          exact absurd hi (by simp)
        · exact ⟨g0, hg0r, hi⟩
    | Incomplete =>
      have hred : s.validateGo (g :: rest) inc = s.validateGo rest true := by
        simp [Sudoku.validateGo, hr]
      rw [hred, ih hrest true]
      constructor
      · rintro ⟨g0, hg0, hi⟩
        exact ⟨g0, List.mem_cons_of_mem _ hg0, hi⟩
      · rintro ⟨g0, hg0, hi⟩
        rcases List.mem_cons.mp hg0 with rfl | hg0r
        · rw [hr] at hi
          exact absurd hi (by simp)
        · exact ⟨g0, hg0r, hi⟩

theorem Sudoku.validateGo_incomplete (s : Sudoku) :
    ∀ (gs : List (List (Nat × Nat))),
      (∀ g ∈ gs, ∀ p ∈ g, p.1 * 9 + p.2 < 81) →
      ∀ inc, s.validateGo gs inc = some .Incomplete →
        inc = true ∨ ∃ g ∈ gs, s.validate_group g = some .Incomplete := by
  intro gs
  induction gs with
  | nil =>
    intro _ inc h
    cases inc
    · simp [Sudoku.validateGo] at h
    · exact Or.inl rfl
  | cons g rest ih =>
    intro hb inc h
    have hrest : ∀ g1 ∈ rest, ∀ p ∈ g1, p.1 * 9 + p.2 < 81 :=
      fun g1 hg1 => hb g1 (List.mem_cons_of_mem _ hg1)
    obtain ⟨r, hr⟩ := s.validate_group_some (hb g (by simp))
    cases r with
    | Invalid =>
      simp only [Sudoku.validateGo, hr] at h
      exact absurd h (by simp)
    | Valid =>
      have hred : s.validateGo (g :: rest) inc = s.validateGo rest inc := by
        simp [Sudoku.validateGo, hr]
      rw [hred] at h
      rcases ih hrest inc h with hinc | ⟨g0, hg0, hi⟩
      · exact Or.inl hinc
      · exact Or.inr ⟨g0, List.mem_cons_of_mem _ hg0, hi⟩
    | Incomplete =>
      exact Or.inr ⟨g, by simp, hr⟩

theorem Sudoku.validate_some (s : Sudoku) : ∃ r, s.validate = some r :=
  s.validateGo_some allGroups allGroups_bounds false

theorem Sudoku.validate_invalid_iff (s : Sudoku) :
    s.validate = some .Invalid ↔
      ∃ g ∈ allGroups, s.validate_group g = some .Invalid :=
  s.validateGo_invalid_iff allGroups allGroups_bounds false

/-- An `Incomplete` board has a blank cell. -/
theorem Sudoku.validate_incomplete_blank {s : Sudoku}
    (h : s.validate = some .Incomplete) :
    ∃ i : Fin 81, (s.cells i).val = 0 := by
  rcases s.validateGo_incomplete allGroups allGroups_bounds false h with
    hfalse | ⟨g, hg, hinc⟩
  · exact absurd hfalse (by simp)
  · have hb := allGroups_bounds g hg
    have hni : s.validate_group g ≠ some .Invalid := by rw [hinc]; simp
    obtain ⟨p, hp, hval⟩ := (Sudoku.validate_group_incomplete_iff hb hni).mp hinc
    refine ⟨⟨p.1 * 9 + p.2, hb p hp⟩, ?_⟩
    rw [← Sudoku.cellD_eq (hb p hp)]
    exact hval

/-- An `Invalid` verdict survives any overwrite of the blank cells: the
duplicate pair consists of final cells, which the extension keeps. -/
theorem Sudoku.validate_invalid_mono {root t : Sudoku}
    (hroot : root.validate = some .Invalid)
    (hext : ∀ i, 0 < (root.cells i).val → t.cells i = root.cells i) :
    t.validate = some .Invalid := by
  obtain ⟨g, hg, hinv⟩ := root.validate_invalid_iff.mp hroot
  have hb := allGroups_bounds g hg
  obtain ⟨l₁, p, l₂, he, hpos, q, hq, hval⟩ :=
    (Sudoku.validate_group_invalid_iff hb).mp hinv
  have hbp : p.1 * 9 + p.2 < 81 := hb p (by rw [he]; simp)
  have hbq : q.1 * 9 + q.2 < 81 :=
    hb q (by rw [he]; exact List.mem_append_left _ hq)
  have hqpos : 0 < (root.cellD q).val := by rw [hval]; exact hpos
  have htp : t.cellD p = root.cellD p := by
    rw [Sudoku.cellD_eq (s := t) hbp, Sudoku.cellD_eq (s := root) hbp]
    exact hext _ (by rw [← Sudoku.cellD_eq (s := root) hbp]; exact hpos)
  have htq : t.cellD q = root.cellD q := by
    rw [Sudoku.cellD_eq (s := t) hbq, Sudoku.cellD_eq (s := root) hbq]
    exact hext _ (by rw [← Sudoku.cellD_eq (s := root) hbq]; exact hqpos)
  apply t.validate_invalid_iff.mpr
  refine ⟨g, hg, (Sudoku.validate_group_invalid_iff hb).mpr
    ⟨l₁, p, l₂, he, ?_, q, hq, ?_⟩⟩
  · rw [htp]; exact hpos
  · rw [htq, htp]; exact hval

/-! ### The backtracking solver -/

theorem tryDigits_some_some {bt : Sudoku → Nat → Option (Option Sudoku)}
    {root : Sudoku} {l : Fin 81} :
    ∀ (ds : List Value) (sol : Sudoku),
      tryDigits bt root l ds = some (some sol) →
      ∃ v ∈ ds, bt (root.setFlat l v) (l.val + 1) = some (some sol) := by
  intro ds
  induction ds with
  | nil => intro sol h; simp [tryDigits] at h
  | cons v vs ih =>
    intro sol h
    cases hbt : bt (root.setFlat l v) (l.val + 1) with
    | none =>
      simp only [tryDigits, hbt] at h
      exact absurd h (by simp)
    | some r =>
      cases r with
      | none =>
        simp only [tryDigits, hbt] at h
        obtain ⟨w, hw, hbw⟩ := ih sol h
        exact ⟨w, List.mem_cons_of_mem _ hw, hbw⟩
      | some s0 =>
        simp only [tryDigits, hbt, Option.some.injEq] at h
        rw [← h]
        exact ⟨v, by simp, hbt⟩

theorem tryDigits_some_none {bt : Sudoku → Nat → Option (Option Sudoku)}
    {root : Sudoku} {l : Fin 81} :
    ∀ (ds : List Value), tryDigits bt root l ds = some none →
      ∀ v ∈ ds, bt (root.setFlat l v) (l.val + 1) = some none := by
  intro ds
  induction ds with
  | nil => intro _ v hv; exact absurd hv (List.not_mem_nil v)
  | cons v vs ih =>
    intro h w hw
    cases hbt : bt (root.setFlat l v) (l.val + 1) with
    | none =>
      simp only [tryDigits, hbt] at h
      exact absurd h (by simp)
    | some r =>
      cases r with
      | none =>
        rcases List.mem_cons.mp hw with rfl | hwr
        · exact hbt
        · simp only [tryDigits, hbt] at h
          exact ih h w hwr
      | some s0 =>
        simp only [tryDigits, hbt] at h
        exact absurd h (by simp)

theorem tryDigits_total {bt : Sudoku → Nat → Option (Option Sudoku)}
    {root : Sudoku} {l : Fin 81} :
    ∀ (ds : List Value),
      (∀ v ∈ ds, ∃ r, bt (root.setFlat l v) (l.val + 1) = some r) →
      ∃ r, tryDigits bt root l ds = some r := by
  intro ds
  induction ds with
  | nil => intro _; exact ⟨none, rfl⟩
  | cons v vs ih =>
    intro h
    obtain ⟨r, hr⟩ := h v (by simp)
    cases r with
    | none =>
      obtain ⟨r2, h2⟩ := ih (fun w hw => h w (List.mem_cons_of_mem _ hw))
      exact ⟨r2, by simp only [tryDigits, hr]; exact h2⟩
    | some s0 =>
      exact ⟨some s0, by simp [tryDigits, hr]⟩

/-- Soundness of the solver: a returned board is `Valid` and agrees with
the input on every final (already fixed) cell. -/
theorem backtrack_sound :
    ∀ (fuel : Nat) (root : Sudoku) (level : Nat) (sol : Sudoku),
      backtrack fuel root level = some (some sol) →
      sol.validate = some .Valid ∧
        ∀ i, 0 < (root.cells i).val → sol.cells i = root.cells i := by
  intro fuel
  induction fuel with
  | zero => intro root level sol h; simp [backtrack] at h
  | succ fuel ih =>
    intro root level sol h
    cases hv : root.validate with
    | none =>
      simp only [backtrack, hv] at h
      exact absurd h (by simp)
    | some r =>
      cases r with
      | Valid =>
        simp only [backtrack, hv, Option.some.injEq] at h
        rw [← h]
        exact ⟨hv, fun i _ => rfl⟩
      | Invalid =>
        simp only [backtrack, hv, Option.some.injEq] at h
        exact absurd h (by simp)
      | Incomplete =>
        cases hadv : root.advance level with
        | none =>
          simp only [backtrack, hv, hadv] at h
          exact absurd h (by simp)
        | some l =>
          simp only [backtrack, hv, hadv] at h
          obtain ⟨v, hvmem, hbt⟩ := tryDigits_some_some solverDigits sol h
          obtain ⟨hsolval, hext⟩ := ih _ _ _ hbt
          obtain ⟨hl1, hl2, hl3⟩ := Sudoku.advance_spec hadv
          refine ⟨hsolval, ?_⟩
          intro i hi
          have hne : i ≠ l := by
            intro e
            rw [e] at hi
            omega
          have hcell : (root.setFlat l v).cells i = root.cells i :=
            Sudoku.setFlat_other _ _ hne
          rw [← hcell]
          exact hext i (by rw [hcell]; exact hi)

/-- Completeness of the solver: if a call reports "no solution", then
every total (all-final) assignment extending the call's board is
`Invalid`. -/
theorem backtrack_complete :
    ∀ (fuel : Nat) (root : Sudoku) (level : Nat),
      backtrack fuel root level = some none →
      ∀ t : Sudoku,
        (∀ i, 0 < (root.cells i).val → t.cells i = root.cells i) →
        (∀ i, 0 < (t.cells i).val) →
        t.validate = some .Invalid := by
  intro fuel
  induction fuel with
  | zero => intro root level h; simp [backtrack] at h
  | succ fuel ih =>
    intro root level h t hext hfull
    cases hv : root.validate with
    | none =>
      simp only [backtrack, hv] at h
      exact absurd h (by simp)
    | some r =>
      cases r with
      | Valid =>
        simp only [backtrack, hv, Option.some.injEq] at h
        exact absurd h (by simp)
      | Invalid =>
        exact Sudoku.validate_invalid_mono hv hext
      | Incomplete =>
        cases hadv : root.advance level with
        | none =>
          simp only [backtrack, hv, hadv] at h
          exact absurd h (by simp)
        | some l =>
          simp only [backtrack, hv, hadv] at h
          have hall := tryDigits_some_none solverDigits h
          obtain ⟨hl1, hl2, hl3⟩ := Sudoku.advance_spec hadv
          have hw : 0 < (t.cells l).val := hfull l
          have hwmem := mem_solverDigits hw
          apply ih (root.setFlat l (t.cells l)) (l.val + 1)
            (hall (t.cells l) hwmem) t ?_ hfull
          intro i hi
          by_cases hil : i = l
          · subst hil
            rw [Sudoku.setFlat_same]
          · rw [Sudoku.setFlat_other _ _ hil] at hi ⊢
            exact hext i hi

/-- Totality of the solver: starting below a level whose prefix is
all-final, with enough fuel, no panic happens and no fuel is consumed
past the bound. -/
theorem backtrack_total :
    ∀ (fuel : Nat) (root : Sudoku) (level : Nat),
      (∀ i : Fin 81, i.val < level → 0 < (root.cells i).val) →
      level ≤ 81 → 82 ≤ fuel + level →
      ∃ r, backtrack fuel root level = some r := by
  intro fuel
  induction fuel with
  | zero =>
    intro root level _ h81 hf
    omega
  | succ fuel ih =>
    intro root level hinv h81 hf
    obtain ⟨r, hv⟩ := root.validate_some
    cases r with
    | Valid => exact ⟨some root, by simp [backtrack, hv]⟩
    | Invalid => exact ⟨none, by simp [backtrack, hv]⟩
    | Incomplete =>
      obtain ⟨i, hi⟩ := Sudoku.validate_incomplete_blank hv
      have hilev : level ≤ i.val := by
        by_contra hlt
        push_neg at hlt
        have := hinv i hlt
        omega
      obtain ⟨l, hadv⟩ := Sudoku.advance_total ⟨i, hilev, hi⟩
      obtain ⟨hl1, hl2, hl3⟩ := Sudoku.advance_spec hadv
      have htd : ∃ r, tryDigits (backtrack fuel) root l solverDigits = some r := by
        apply tryDigits_total
        intro v hvmem
        apply ih (root.setFlat l v) (l.val + 1) ?_
          (by have := l.isLt; omega) (by omega)
        intro j hj
        by_cases hjl : j = l
        · subst hjl
          rw [Sudoku.setFlat_same]
          exact solverDigits_pos v hvmem
        · rw [Sudoku.setFlat_other _ _ hjl]
          by_cases hjlev : j.val < level
          · exact hinv j hjlev
          · exact hl3 j (by omega) (by omega)
      obtain ⟨r, hr⟩ := htd
      exact ⟨r, by simp only [backtrack, hv, hadv]; exact hr⟩

/-! ### Claim theorems: the solver (C1, C2, C6, C9) -/

/-- C1: for every board `b`, if `solve(b)` returns `Some(s)` then
`s.valid()` returns true, and `s` agrees with `b` on every cell that was
already final in `b` (the solver only fills cells that are not final). -/
theorem solve_sound_extends (b s : Sudoku) (h : solve b = some (some s)) :
    s.valid = some true ∧ ∀ i, 0 < (b.cells i).val → s.cells i = b.cells i := by
  obtain ⟨hval, hext⟩ := backtrack_sound 82 b 0 s h
  exact ⟨by simp [Sudoku.valid, hval], hext⟩

theorem solve_sound_extends_witness :
    solvedGrid.valid = some true ∧
      solvedGrid.cells 1 = nearlySolvedGrid.cells 1 := by
  have h := solve_sound_extends nearlySolvedGrid solvedGrid (by decide)
  exact ⟨h.1, h.2 1 (by decide)⟩

/-- C2: for every board `b`, if `solve(b)` returns `None` then no
assignment of digits 1–9 to the non-final cells of `b` produces a board
whose `valid()` returns true: every all-final board `t` agreeing with
`b` on `b`'s final cells has `valid() == false`. -/
theorem solve_none_exhaustive (b t : Sudoku) (h : solve b = some none)
    (hext : ∀ i, 0 < (b.cells i).val → t.cells i = b.cells i)
    (hfull : ∀ i, 0 < (t.cells i).val) :
    t.valid = some false := by
  have hinv := backtrack_complete 82 b 0 h t hext hfull
  simp [Sudoku.valid, hinv]

theorem solve_none_exhaustive_witness : allOnesBoard.valid = some false :=
  solve_none_exhaustive clashBoard allOnesBoard (by decide) (by decide)
    (by decide)

/-- C6: `solve` terminates on every input board and always returns a
result (`some r`, never the panic/non-termination marker `none`): the
cursor strictly increases at each recursive call, so fuel 82 — one
initial call plus at most 81 decision levels — is never exhausted. -/
theorem solve_total (b : Sudoku) : ∃ r, solve b = some r :=
  backtrack_total 82 b 0 (fun i hi => absurd hi (by omega)) (by omega)
    (by omega)

/-- C9: solving is idempotent once solved: if `solve(b)` returns
`Some(s)` then `solve(s)` returns `Some(s)`. -/
theorem solve_idempotent (b s : Sudoku) (h : solve b = some (some s)) :
    solve s = some (some s) := by
  have hval := (backtrack_sound 82 b 0 s h).1
  show backtrack 82 s 0 = some (some s)
  rw [show (82 : Nat) = 81 + 1 from rfl]
  simp [backtrack, hval]

theorem solve_idempotent_witness : solve solvedGrid = some (some solvedGrid) :=
  solve_idempotent nearlySolvedGrid solvedGrid (by decide)

/-! ### Claim theorems: block enumeration (C3) -/

/-- Modelled from the claim's words: block `i` as a 3×3 sub-square with
top-left corner at row `(i / 3) * 3`, column `(i % 3) * 3`, enumerated
in row-major order within the block. -/
def block_iter_claimed (block : Nat) : List (Nat × Nat) :=
  [(0,0),(0,1),(0,2),(1,0),(1,1),(1,2),(2,0),(2,1),(2,2)].map
    (fun p => ((block / 3) * 3 + p.1, (block % 3) * 3 + p.2))

/-- The amended description: the top-left corner is at row
`(i % 3) * 3`, column `(i / 3) * 3` (the source swaps the two
formulas), still row-major within the block. -/
def block_iter_amended (block : Nat) : List (Nat × Nat) :=
  [(0,0),(0,1),(0,2),(1,0),(1,1),(1,2),(2,0),(2,1),(2,2)].map
    (fun p => ((block % 3) * 3 + p.1, (block / 3) * 3 + p.2))

/-- C3 counterexample: already at block index 1 the enumeration differs
from the claimed one (the code yields rows 3..5 of columns 0..2, the
claim demands rows 0..2 of columns 3..5). -/
theorem block_iter_claim_counterexample :
    block_iter 1 ≠ block_iter_claimed 1 := by decide

/-- C3 (amended): for every block index `i` in `0..9`, `block_iter i`
enumerates the 3×3 sub-square with top-left corner at row
`(i % 3) * 3`, column `(i / 3) * 3` in row-major order; block 0 yields
exactly `(0,0),(0,1),(0,2),(1,0),(1,1),(1,2),(2,0),(2,1),(2,2)`. -/
theorem block_iter_blocks (i : Nat) (h : i < 9) :
    block_iter i = block_iter_amended i ∧
      block_iter 0 = [(0,0),(0,1),(0,2),(1,0),(1,1),(1,2),(2,0),(2,1),(2,2)] := by
  constructor
  · interval_cases i <;> decide
  · decide

theorem block_iter_blocks_witness :
    block_iter 1 = block_iter_amended 1 ∧
      block_iter 0 = [(0,0),(0,1),(0,2),(1,0),(1,1),(1,2),(2,0),(2,1),(2,2)] :=
  block_iter_blocks 1 (by omega)

/-! ### Claim theorems: `Value::new` (C4) -/

/-- C4 counterexample: `Value::new(0)` succeeds (it is the `Default`
blank cell), contradicting the claim that every `v` outside `[1, 9]` is
rejected. -/
theorem value_new_zero_ok : Value.new 0 = .ok Value.blank := by decide

/-- C4 (amended): `Value::new(v)` returns `Ok` for every `v ≤ 9`
(including `v = 0`, the blank/default value) and an error exactly for
every `v > 9`. -/
theorem value_new_range (v : Nat) :
    (∀ h : v ≤ 9, Value.new v = .ok ⟨v, h⟩) ∧
      (9 < v → Value.new v = .error .invalidValue) := by
  constructor
  · intro h
    rw [Value.new, dif_neg (by omega : ¬ 9 < v)]
  · intro h
    rw [Value.new, dif_pos h]

theorem value_new_range_witness :
    Value.new 7 = .ok ⟨7, by omega⟩ ∧ Value.new 12 = .error .invalidValue :=
  ⟨(value_new_range 7).1 (by omega), (value_new_range 12).2 (by omega)⟩

/-! ### Claim theorems: flat indexing of `get`/`set` (C10) -/

/-- C10: `get`/`set` index the flat array as `x * 9 + y` without
separate bounds checks on each coordinate, so any `(x, y)` with `y ≥ 9`
but `x * 9 + y ≤ 80` silently aliases the cell at
`((x*9+y) / 9, (x*9+y) % 9)` — for example `get(0, 9)` reads the same
cell as `get(1, 0)` — and the out-of-bounds panic (`none`) happens
exactly when `x * 9 + y ≥ 81`. -/
theorem get_set_flat_indexing (s : Sudoku) (x y u w : Nat) (v : Value)
    (h9 : 9 ≤ y) (h80 : x * 9 + y ≤ 80) :
    ((x * 9 + y) % 9 < 9 ∧
      ((x * 9 + y) / 9, (x * 9 + y) % 9) ≠ (x, y) ∧
      s.get x y = s.get ((x * 9 + y) / 9) ((x * 9 + y) % 9) ∧
      (s.get x y).isSome = true ∧
      s.set x y v = s.set ((x * 9 + y) / 9) ((x * 9 + y) % 9) v) ∧
    (s.get u w = none ↔ 81 ≤ u * 9 + w) ∧
    s.get 0 9 = s.get 1 0 := by
  have hidx : (x * 9 + y) / 9 * 9 + (x * 9 + y) % 9 = x * 9 + y := by omega
  refine ⟨⟨by omega, ?_, ?_, ?_, ?_⟩, ?_, ?_⟩
  · intro e
    have := congrArg Prod.snd e
    simp only at this
    omega
  · rw [Sudoku.get, Sudoku.get, hidx]
  · rw [Sudoku.get, dif_pos (show x * 9 + y < 81 by omega)]
    rfl
  · rw [Sudoku.set, Sudoku.set, hidx]
  · by_cases hb : u * 9 + w < 81
    · simp only [Sudoku.get, dif_pos hb]
      constructor
      · intro e
        exact absurd e (by simp)
      · intro e
        omega
    · simp only [Sudoku.get, dif_neg hb]
      constructor
      · intro _
        omega
      · intro _
        trivial
  · rfl

theorem get_set_flat_indexing_witness :
    ((0 * 9 + 9) % 9 < 9 ∧
      ((0 * 9 + 9) / 9, (0 * 9 + 9) % 9) ≠ (0, 9) ∧
      solvedGrid.get 0 9 = solvedGrid.get ((0 * 9 + 9) / 9) ((0 * 9 + 9) % 9) ∧
      (solvedGrid.get 0 9).isSome = true ∧
      solvedGrid.set 0 9 Value.blank =
        solvedGrid.set ((0 * 9 + 9) / 9) ((0 * 9 + 9) % 9) Value.blank) ∧
    (solvedGrid.get 9 0 = none ↔ 81 ≤ 9 * 9 + 0) ∧
    solvedGrid.get 0 9 = solvedGrid.get 1 0 :=
  get_set_flat_indexing solvedGrid 0 9 9 0 Value.blank (by omega) (by omega)

/-! ### Claim theorems: group classification (C5) -/

/-- Two distinct coordinates of the group hold final cells with the same
value. -/
def GroupDup (s : Sudoku) (coords : List (Nat × Nat)) : Prop :=
  ∃ p ∈ coords, ∃ q ∈ coords, p ≠ q ∧ 0 < (s.cellD p).val ∧
    (s.cellD q).val = (s.cellD p).val

/-- The classification of `validate_group` over one group, as the claim
states it: `Invalid` iff two cells are final with the same value;
`Valid` iff not invalid and all cells final (and then each digit 1–9 is
covered); `Incomplete` iff not invalid and some cell is not final. -/
def GroupSpec (s : Sudoku) (coords : List (Nat × Nat)) : Prop :=
  (s.validate_group coords = some .Invalid ↔ GroupDup s coords) ∧
  (s.validate_group coords = some .Valid ↔
    ¬ GroupDup s coords ∧ ∀ p ∈ coords, 0 < (s.cellD p).val) ∧
  (s.validate_group coords = some .Incomplete ↔
    ¬ GroupDup s coords ∧ ∃ p ∈ coords, (s.cellD p).val = 0) ∧
  (s.validate_group coords = some .Valid →
    ∀ d, 1 ≤ d → d ≤ 9 → ∃ p ∈ coords, (s.cellD p).val = d)

/-- Two distinct members of a list admit a split of the list around the
later of the two, with the other in the prefix. -/
theorem mem_pair_split {α : Type} {l : List α} {p q : α}
    (hp : p ∈ l) (hq : q ∈ l) (hne : p ≠ q) :
    ∃ l₁ c l₂, l = l₁ ++ c :: l₂ ∧
      ((c = p ∧ q ∈ l₁) ∨ (c = q ∧ p ∈ l₁)) := by
  induction l with
  | nil => exact absurd hp (List.not_mem_nil p)
  | cons a rest ih =>
    by_cases hpa : p = a
    · have hqr : q ∈ rest := by
        rcases List.mem_cons.mp hq with rfl | h
        · exact absurd hpa hne
        · exact h
      obtain ⟨t₁, t₂, rfl⟩ := List.append_of_mem hqr
      refine ⟨a :: t₁, q, t₂, by simp, Or.inr ⟨rfl, ?_⟩⟩
      rw [hpa]
      simp
    · by_cases hqa : q = a
      · have hpr : p ∈ rest := by
          rcases List.mem_cons.mp hp with rfl | h
          · exact absurd rfl hpa
          · exact h
        obtain ⟨t₁, t₂, rfl⟩ := List.append_of_mem hpr
        refine ⟨a :: t₁, p, t₂, by simp, Or.inl ⟨rfl, ?_⟩⟩
        rw [hqa]
        simp
      · have hpr : p ∈ rest := by
          rcases List.mem_cons.mp hp with rfl | h
          · exact absurd rfl hpa
          · exact h
        have hqr : q ∈ rest := by
          rcases List.mem_cons.mp hq with rfl | h
          · exact absurd rfl hqa
          · exact h
        obtain ⟨l₁, c, l₂, hl, hc⟩ := ih hpr hqr
        refine ⟨a :: l₁, c, l₂, by rw [hl, List.cons_append], ?_⟩
        rcases hc with ⟨hcp, hql⟩ | ⟨hcq, hpl⟩
        · exact Or.inl ⟨hcp, List.mem_cons_of_mem _ hql⟩
        · exact Or.inr ⟨hcq, List.mem_cons_of_mem _ hpl⟩

/-- On a duplicate-free group, `Invalid` means exactly: two distinct
coordinates hold final cells of equal value. -/
theorem validate_group_dup_iff {s : Sudoku} {coords : List (Nat × Nat)}
    (hb : ∀ p ∈ coords, p.1 * 9 + p.2 < 81) (hn : coords.Nodup) :
    s.validate_group coords = some .Invalid ↔ GroupDup s coords := by
  rw [Sudoku.validate_group_invalid_iff hb]
  constructor
  · rintro ⟨l₁, p, l₂, he, hpos, q, hq, hval⟩
    subst he
    have hdisj := (List.nodup_append.mp hn).2.2
    have hqp : q ≠ p := fun e => hdisj hq (by rw [e]; simp)
    exact ⟨p, by simp, q, List.mem_append_left _ hq,
      fun e => hqp e.symm, hpos, hval⟩
  · rintro ⟨p, hp, q, hq, hne, hpos, hval⟩
    obtain ⟨l₁, c, l₂, hl, hc⟩ := mem_pair_split hp hq hne
    rcases hc with ⟨rfl, hql⟩ | ⟨rfl, hpl⟩
    · exact ⟨l₁, c, l₂, hl, hpos, q, hql, hval⟩
    · exact ⟨l₁, c, l₂, hl, by rw [hval]; exact hpos, p, hpl, hval.symm⟩

/-- C5: for every duplicate-free in-range group of 9 coordinates,
`validate_group` returns `Invalid` iff two cells of the group are final
with the same value, `Valid` iff it is not invalid and all 9 cells are
final (and then the digits 1–9 are each covered), and `Incomplete` iff
it is not invalid and at least one cell is not final. -/
theorem group_classification (s : Sudoku) (coords : List (Nat × Nat))
    (hb : ∀ p ∈ coords, p.1 * 9 + p.2 < 81) (hn : coords.Nodup)
    (hl : coords.length = 9) : GroupSpec s coords := by
  have hdup : s.validate_group coords = some .Invalid ↔ GroupDup s coords :=
    validate_group_dup_iff hb hn
  obtain ⟨r, hr⟩ := Sudoku.validate_group_some (s := s) hb
  have hblank : s.validate_group coords ≠ some .Invalid →
      (s.validate_group coords = some .Incomplete ↔
        ∃ p ∈ coords, (s.cellD p).val = 0) :=
    fun hni => Sudoku.validate_group_incomplete_iff hb hni
  have hvalid : s.validate_group coords = some .Valid ↔
      ¬ GroupDup s coords ∧ ∀ p ∈ coords, 0 < (s.cellD p).val := by
    constructor
    · intro hv
      have hni : s.validate_group coords ≠ some .Invalid := by rw [hv]; simp
      refine ⟨fun hd => ?_, ?_⟩
      · have h2 := hdup.mpr hd
        rw [hv] at h2
        exact absurd h2 (by simp)
      · intro p hp
        by_contra hz
        push_neg at hz
        have hz0 : (s.cellD p).val = 0 := by omega
        have h2 := (hblank hni).mpr ⟨p, hp, hz0⟩
        rw [hv] at h2
        exact absurd h2 (by simp)
    · rintro ⟨hnd, hall⟩
      cases r with
      | Valid => exact hr
      | Invalid => exact absurd (hdup.mp hr) hnd
      | Incomplete =>
        have hni : s.validate_group coords ≠ some .Invalid := by rw [hr]; simp
        obtain ⟨p, hp, hz⟩ := (hblank hni).mp hr
        have := hall p hp
        omega
  have hincomp : s.validate_group coords = some .Incomplete ↔
      ¬ GroupDup s coords ∧ ∃ p ∈ coords, (s.cellD p).val = 0 := by
    constructor
    · intro hv
      have hni : s.validate_group coords ≠ some .Invalid := by rw [hv]; simp
      refine ⟨fun hd => ?_, (hblank hni).mp hv⟩
      have h2 := hdup.mpr hd
      rw [hv] at h2
      exact absurd h2 (by simp)
    · rintro ⟨hnd, p, hp, hz⟩
      cases r with
      | Invalid => exact absurd (hdup.mp hr) hnd
      | Incomplete => exact hr
      | Valid =>
        obtain ⟨_, hall⟩ := hvalid.mp hr
        have := hall p hp
        omega
  refine ⟨hdup, hvalid, hincomp, ?_⟩
  intro hv d hd1 hd9
  obtain ⟨hnd, hall⟩ := hvalid.mp hv
  have hnodup : (coords.map (fun p => (s.cellD p).val)).Nodup := by
    apply List.Nodup.map_on ?_ hn
    intro p hp q hq hfe
    by_contra hne
    exact hnd ⟨p, hp, q, hq, hne, hall p hp, hfe.symm⟩
  have hsub : (coords.map (fun p => (s.cellD p).val)).toFinset ⊆
      Finset.Icc 1 9 := by
    intro a ha
    rw [List.mem_toFinset] at ha
    obtain ⟨p, hp, rfl⟩ := List.mem_map.mp ha
    rw [Finset.mem_Icc]
    exact ⟨hall p hp, (s.cellD p).2⟩
  have hcard : (Finset.Icc 1 9 : Finset Nat).card ≤
      (coords.map (fun p => (s.cellD p).val)).toFinset.card := by
    rw [List.toFinset_card_of_nodup hnodup, List.length_map, hl]
    simp
  have heq := Finset.eq_of_subset_of_card_le hsub hcard
  have hd : d ∈ (coords.map (fun p => (s.cellD p).val)).toFinset := by
    rw [heq, Finset.mem_Icc]
    exact ⟨hd1, hd9⟩
  rw [List.mem_toFinset] at hd
  obtain ⟨p, hp, he⟩ := List.mem_map.mp hd
  exact ⟨p, hp, he⟩

theorem group_classification_witness : GroupSpec clashBoard (row_iter 0) :=
  group_classification clashBoard (row_iter 0) (by decide) (by decide)
    (by decide)

/-! ### Claim theorems: parsing rejects bad characters (C7) -/

theorem parseU8_digit {c : Nat} (h1 : 48 ≤ c) (h2 : c ≤ 57) :
    parseU8 [c] = .ok (c - 48) := by
  rw [parseU8,
    if_pos ⟨by simp, by intro x hx; rw [List.mem_singleton] at hx; omega⟩]
  simp only [List.foldl_cons, List.foldl_nil]
  rw [if_pos (by omega)]
  norm_num

/-- A digit character `'1'..'9'` parses to the corresponding value. -/
theorem from_chars_digit {c : Nat} (h1 : 49 ≤ c) (h2 : c ≤ 57) :
    Value.from_chars [c] = .ok ⟨c - 48, by omega⟩ := by
  have h32 : ¬ ([c] = [32]) := by simp; omega
  simp only [Value.from_chars, if_neg h32,
    parseU8_digit (show 48 ≤ c by omega) h2]
  rw [if_neg (show ¬ (c - 48 = 0) by omega), Value.new,
    dif_neg (show ¬ 9 < c - 48 by omega)]

/-- Any character other than a space or a digit `'1'..'9'` fails to
parse as a `Value` (the digit `'0'` with a value-out-of-range error,
anything non-digit with a parse failure). -/
theorem from_chars_bad {c : Nat} (hb : ¬ (c = 32 ∨ (49 ≤ c ∧ c ≤ 57))) :
    ∃ e, Value.from_chars [c] = .error e := by
  push_neg at hb
  obtain ⟨h32, hdig⟩ := hb
  have h32l : ¬ ([c] = [32]) := by simp [h32]
  by_cases hd : 48 ≤ c ∧ c ≤ 57
  · have hc48 : c = 48 := by
      rcases hd with ⟨hd1, hd2⟩
      by_contra hne
      have := hdig (by omega)
      omega
    subst hc48
    exact ⟨.valueOutOfRange, by decide⟩
  · have hcond : ¬ ([c] ≠ [] ∧ ∀ x ∈ [c], 48 ≤ x ∧ x ≤ 57) := by
      intro ⟨_, hall⟩
      exact hd (hall c (by simp))
    have hp : parseU8 [c] = .error .parseFailure := by
      rw [parseU8, if_neg hcond]
    exact ⟨.parseFailure, by simp only [Value.from_chars, if_neg h32l, hp]⟩

theorem parseRowGo_ok (x : Nat) :
    ∀ (cs : List Nat) (y : Nat) (b : Sudoku), x < 9 → y + cs.length ≤ 9 →
      (∀ c ∈ cs, c = 32 ∨ (49 ≤ c ∧ c ≤ 57)) →
      ∃ b2, parseRowGo x cs y b = some (.ok b2) := by
  intro cs
  induction cs with
  | nil => intro y b _ _ _; exact ⟨b, rfl⟩
  | cons c rest ih =>
    intro y b hx hy hall
    by_cases hc : c = 32
    · subst hc
      simp only [parseRowGo, if_pos rfl]
      exact ih (y + 1) b hx (by simp at hy ⊢; omega)
        (fun c0 hc0 => hall c0 (by simp [hc0]))
    · have hd : 49 ≤ c ∧ c ≤ 57 := by
        rcases hall c (by simp) with h | h
        · exact absurd h hc
        · exact h
      have hset : x * 9 + y < 81 := by simp at hy; omega
      simp only [parseRowGo, if_neg hc, from_chars_digit hd.1 hd.2,
        Sudoku.set, dif_pos hset]
      exact ih (y + 1) _ hx (by simp at hy ⊢; omega)
        (fun c0 hc0 => hall c0 (by simp [hc0]))

theorem parseRowGo_err (x : Nat) :
    ∀ (cs : List Nat) (y : Nat) (b : Sudoku), x < 9 → y + cs.length ≤ 9 →
      (∃ c ∈ cs, ¬ (c = 32 ∨ (49 ≤ c ∧ c ≤ 57))) →
      ∃ e, parseRowGo x cs y b = some (.error e) := by
  intro cs
  induction cs with
  | nil =>
    intro y b _ _ hbad
    obtain ⟨c, hc, _⟩ := hbad
    exact absurd hc (List.not_mem_nil c)
  | cons c rest ih =>
    intro y b hx hy hbad
    by_cases hgood : c = 32 ∨ (49 ≤ c ∧ c ≤ 57)
    · have hbadr : ∃ c0 ∈ rest, ¬ (c0 = 32 ∨ (49 ≤ c0 ∧ c0 ≤ 57)) := by
        obtain ⟨c0, hc0, hb0⟩ := hbad
        rcases List.mem_cons.mp hc0 with rfl | h
        · exact absurd hgood hb0
        · exact ⟨c0, h, hb0⟩
      rcases hgood with hc32 | hd
      · subst hc32
        simp only [parseRowGo, if_pos rfl]
        exact ih (y + 1) b hx (by simp at hy ⊢; omega) hbadr
      · have hc32 : ¬ (c = 32) := by omega
        have hset : x * 9 + y < 81 := by simp at hy; omega
        simp only [parseRowGo, if_neg hc32, from_chars_digit hd.1 hd.2,
          Sudoku.set, dif_pos hset]
        exact ih (y + 1) _ hx (by simp at hy ⊢; omega) hbadr
    · obtain ⟨e, he⟩ := from_chars_bad hgood
      have hc32 : ¬ (c = 32) := fun e2 => hgood (Or.inl e2)
      exact ⟨e, by simp only [parseRowGo, if_neg hc32, he]⟩

theorem parseLinesGo_ok :
    ∀ (rows : List (List Nat)) (x : Nat) (b : Sudoku),
      x + rows.length ≤ 9 →
      (∀ l ∈ rows, l.length ≤ 9 ∧ ∀ c ∈ l, c = 32 ∨ (49 ≤ c ∧ c ≤ 57)) →
      ∃ b2, parseLinesGo rows x b = some (.ok b2) := by
  intro rows
  induction rows with
  | nil => intro x b _ _; exact ⟨b, rfl⟩
  | cons r rest ih =>
    intro x b hx hall
    obtain ⟨hr9, hrg⟩ := hall r (by simp)
    obtain ⟨b2, hb2⟩ := parseRowGo_ok x r 0 b (by simp at hx; omega)
      (by omega) hrg
    simp only [parseLinesGo, hb2]
    exact ih (x + 1) b2 (by simp at hx ⊢; omega)
      (fun l hl => hall l (by simp [hl]))

theorem parseLinesGo_err :
    ∀ (rows : List (List Nat)) (x : Nat) (b : Sudoku),
      x + rows.length ≤ 9 → (∀ l ∈ rows, l.length ≤ 9) →
      (∃ l ∈ rows, ∃ c ∈ l, ¬ (c = 32 ∨ (49 ≤ c ∧ c ≤ 57))) →
      ∃ e, parseLinesGo rows x b = some (.error e) := by
  intro rows
  induction rows with
  | nil =>
    intro x b _ _ hbad
    obtain ⟨l, hl, _⟩ := hbad
    exact absurd hl (List.not_mem_nil l)
  | cons r rest ih =>
    intro x b hx hlen hbad
    by_cases hrb : ∃ c ∈ r, ¬ (c = 32 ∨ (49 ≤ c ∧ c ≤ 57))
    · obtain ⟨e, he⟩ := parseRowGo_err x r 0 b (by simp at hx; omega)
        (by have := hlen r (by simp); omega) hrb
      exact ⟨e, by simp only [parseLinesGo, he]⟩
    · push_neg at hrb
      obtain ⟨b2, hb2⟩ := parseRowGo_ok x r 0 b (by simp at hx; omega)
        (by have := hlen r (by simp); omega) hrb
      have hbadr : ∃ l ∈ rest, ∃ c ∈ l, ¬ (c = 32 ∨ (49 ≤ c ∧ c ≤ 57)) := by
        obtain ⟨l0, hl0, hc⟩ := hbad
        rcases List.mem_cons.mp hl0 with rfl | h
        · obtain ⟨c0, hc0, hb0⟩ := hc
          exact absurd (hrb c0 hc0) hb0
        · exact ⟨l0, h, hc⟩
      obtain ⟨e, he⟩ := ih (x + 1) b2 (by simp at hx ⊢; omega)
        (fun l hl => hlen l (by simp [hl])) hbadr
      exact ⟨e, by simp only [parseLinesGo, hb2]; exact he⟩

/-- C7: for every input whose lines (at most 9, each of at most 9
characters) contain a character outside `{' ', '1'..'9'}`, parsing the
input as a `Sudoku` returns an error and never panics (`some (error e)`,
not the panic marker `none`); the digit character `'0'` in particular is
rejected with the value-out-of-range error. -/
theorem parse_rejects_bad_char (input : List Nat)
    (hlines : (splitNl input).length ≤ 9)
    (hlen : ∀ l ∈ splitNl input, l.length ≤ 9)
    (hbad : ∃ l ∈ splitNl input, ∃ c ∈ l, ¬ (c = 32 ∨ (49 ≤ c ∧ c ≤ 57))) :
    (∃ e, Sudoku.from_chars input = some (.error e)) ∧
      Value.from_chars [48] = .error .valueOutOfRange := by
  constructor
  · exact parseLinesGo_err (splitNl input) 0 Sudoku.new (by omega) hlen hbad
  · decide

theorem parse_rejects_bad_char_witness :
    (∃ e, Sudoku.from_chars [48] = some (.error e)) ∧
      Value.from_chars [48] = .error .valueOutOfRange :=
  parse_rejects_bad_char [48] (by decide) (by decide) (by decide)

/-! ### Claim theorems: display/parse round trip (C8) -/

theorem Sudoku.cells_mk (f : Fin 81 → Value) (j : Fin 81) :
    (Sudoku.mk f).cells j = f j := rfl

theorem toChar_ne_nl (v : Value) : v.toChar ≠ 10 := by
  rw [Value.toChar]
  by_cases h : 0 < v.val
  · rw [if_pos h]
    omega
  · rw [if_neg h]
    omega

/-- A final cell renders as its digit character, which is not a space
and parses back to the very same value. -/
theorem toChar_final {v : Value} (h : 0 < v.val) :
    v.toChar = 48 + v.val ∧ ¬ (v.toChar = 32) ∧
      Value.from_chars [v.toChar] = .ok v := by
  have ht : v.toChar = 48 + v.val := by rw [Value.toChar, if_pos h]
  refine ⟨ht, by rw [ht]; omega, ?_⟩
  rw [ht, from_chars_digit (by omega) (by have := v.2; omega)]
  congr 1
  exact Subtype.ext (show 48 + v.val - 48 = v.val by omega)

theorem splitNl_ne_nil : ∀ l : List Nat, splitNl l ≠ [] := by
  intro l
  induction l with
  | nil => simp [splitNl]
  | cons c rest ih =>
    cases hs : splitNl rest with
    | nil => exact absurd hs ih
    | cons a as =>
      simp only [splitNl, hs]
      by_cases hc : c = 10 <;> simp [hc]

theorem splitNl_cons (c : Nat) (l : List Nat) :
    splitNl (c :: l) =
      match splitNl l with
      | [] => [[c]]
      | r :: rs => if c = 10 then [] :: r :: rs else (c :: r) :: rs := rfl

theorem splitNl_append_row {l : List Nat} (h : ∀ c ∈ l, c ≠ 10) :
    ∀ rest, splitNl (l ++ 10 :: rest) = l :: splitNl rest := by
  induction l with
  | nil =>
    intro rest
    cases hs : splitNl rest with
    | nil => exact absurd hs (splitNl_ne_nil rest)
    | cons a as =>
      rw [List.nil_append, splitNl_cons, hs]
      simp
  | cons c cs ih =>
    intro rest
    have hc : c ≠ 10 := h c (by simp)
    have hcs : ∀ x ∈ cs, x ≠ 10 := fun x hx => h x (by simp [hx])
    rw [List.cons_append, splitNl_cons, ih hcs rest]
    simp [hc]

theorem rowCharsFrom_no_nl (s : Sudoku) (x : Nat) :
    ∀ (n y : Nat), ∀ c ∈ s.rowCharsFrom x n y, c ≠ 10 := by
  intro n
  induction n with
  | zero => intro y c hc; exact absurd hc (List.not_mem_nil c)
  | succ n ih =>
    intro y c hc
    simp only [Sudoku.rowCharsFrom] at hc
    rcases List.mem_cons.mp hc with rfl | h
    · exact toChar_ne_nl _
    · exact ih (y + 1) c h

/-- The lines of the formatted board, rows `x`, `x+1`, ... (`n` rows
remaining). -/
def Sudoku.rowsFrom (s : Sudoku) : Nat → Nat → List (List Nat)
  | 0, _ => []
  | n + 1, x => s.rowCharsFrom x 9 0 :: s.rowsFrom n (x + 1)

theorem splitNl_displayFrom (s : Sudoku) :
    ∀ (n x : Nat), splitNl (s.displayFrom n x) = s.rowsFrom n x ++ [[]] := by
  intro n
  induction n with
  | zero => intro x; simp [Sudoku.displayFrom, Sudoku.rowsFrom, splitNl]
  | succ n ih =>
    intro x
    simp only [Sudoku.displayFrom, Sudoku.rowsFrom]
    rw [splitNl_append_row (rowCharsFrom_no_nl s x 9 0) _, ih (x + 1)]
    simp

/-- The board after re-parsing one rendered row on top of `b`: columns
`y..9` of row `x` come from `s`, everything else from `b`. -/
def patchRow (b s : Sudoku) (x y : Nat) : Sudoku :=
  ⟨fun j => if x * 9 + y ≤ j.val ∧ j.val < x * 9 + 9 then s.cells j
    else b.cells j⟩

/-- The board after re-parsing the rendered rows `x..9` on top of `b`. -/
def patchRows (b s : Sudoku) (x : Nat) : Sudoku :=
  ⟨fun j => if x * 9 ≤ j.val then s.cells j else b.cells j⟩

theorem parseRow_display (s : Sudoku) (hfull : ∀ i, 0 < (s.cells i).val)
    (x : Nat) (hx : x < 9) :
    ∀ (n y : Nat) (b : Sudoku), y + n = 9 →
      parseRowGo x (s.rowCharsFrom x n y) y b =
        some (.ok (patchRow b s x y)) := by
  intro n
  induction n with
  | zero =>
    intro y b hy
    have hy9 : y = 9 := by omega
    subst hy9
    have hpatch : patchRow b s x 9 = b := by
      apply Sudoku.ext_cells
      intro j
      simp only [patchRow, Sudoku.cells_mk]
      rw [if_neg (by omega)]
    simp only [Sudoku.rowCharsFrom, parseRowGo, hpatch]
  | succ n ih =>
    intro y b hy
    have hyb : y < 9 := by omega
    have hidx : x * 9 + y < 81 := by omega
    have hcell : s.cellD (x, y) = s.cells ⟨x * 9 + y, hidx⟩ :=
      Sudoku.cellD_eq hidx
    have hpos : 0 < (s.cellD (x, y)).val := by
      rw [hcell]
      exact hfull _
    obtain ⟨ht48, ht32, htok⟩ := toChar_final hpos
    simp only [Sudoku.rowCharsFrom, parseRowGo, if_neg ht32, htok,
      Sudoku.set, dif_pos hidx]
    rw [ih (y + 1) _ (by omega)]
    have hpr : patchRow (b.setFlat ⟨x * 9 + y, hidx⟩ (s.cellD (x, y)))
        s x (y + 1) = patchRow b s x y := by
      apply Sudoku.ext_cells
      intro j
      simp only [patchRow, Sudoku.cells_mk]
      by_cases h1 : x * 9 + (y + 1) ≤ j.val ∧ j.val < x * 9 + 9
      · rw [if_pos h1, if_pos (by omega)]
      · rw [if_neg h1]
        by_cases h2 : x * 9 + y ≤ j.val ∧ j.val < x * 9 + 9
        · rw [if_pos h2]
          have hj : j = ⟨x * 9 + y, hidx⟩ :=
            Fin.ext (show j.val = x * 9 + y by omega)
          rw [hj, Sudoku.setFlat_same, hcell]
        · rw [if_neg h2]
          apply Sudoku.setFlat_other
          intro e
          have : j.val = x * 9 + y := by rw [e]
          exact h2 ⟨by omega, by omega⟩
    rw [hpr]

theorem parseLines_display (s : Sudoku) (hfull : ∀ i, 0 < (s.cells i).val) :
    ∀ (n x : Nat) (b : Sudoku), x + n = 9 →
      parseLinesGo (s.rowsFrom n x ++ [[]]) x b =
        some (.ok (patchRows b s x)) := by
  intro n
  induction n with
  | zero =>
    intro x b hx
    have hx9 : x = 9 := by omega
    subst hx9
    have hpatch : patchRows b s 9 = b := by
      apply Sudoku.ext_cells
      intro j
      simp only [patchRows, Sudoku.cells_mk]
      rw [if_neg (by have := j.isLt; omega)]
    simp only [Sudoku.rowsFrom, List.nil_append, parseLinesGo, parseRowGo,
      hpatch]
  | succ n ih =>
    intro x b hx
    have hx9 : x < 9 := by omega
    simp only [Sudoku.rowsFrom, List.cons_append, parseLinesGo,
      parseRow_display s hfull x hx9 9 0 b (by omega)]
    rw [show ((s.rowsFrom n (x + 1)).append [[]]) =
      s.rowsFrom n (x + 1) ++ [[]] from rfl, ih (x + 1) _ (by omega)]
    have hrows : patchRows (patchRow b s x 0) s (x + 1) = patchRows b s x := by
      apply Sudoku.ext_cells
      intro j
      simp only [patchRows, patchRow, Sudoku.cells_mk]
      by_cases h1 : (x + 1) * 9 ≤ j.val
      · rw [if_pos h1, if_pos (by omega)]
      · rw [if_neg h1]
        by_cases h2 : x * 9 ≤ j.val
        · rw [if_pos (by omega), if_pos h2]
        · rw [if_neg (by omega), if_neg h2]
    rw [hrows]

/-- C8: for every board all of whose 81 cells are final, formatting the
board with `Display` and parsing the resulting text back yields exactly
the original board. -/
theorem display_parse_roundtrip (s : Sudoku)
    (hfull : ∀ i, 0 < (s.cells i).val) :
    Sudoku.from_chars s.display = some (.ok s) := by
  rw [Sudoku.from_chars, Sudoku.display, splitNl_displayFrom s 9 0,
    parseLines_display s hfull 9 0 Sudoku.new (by omega)]
  have hpatch : patchRows Sudoku.new s 0 = s := by
    apply Sudoku.ext_cells
    intro j
    simp only [patchRows, Sudoku.cells_mk]
    rw [if_pos (by omega)]
  rw [hpatch]

theorem display_parse_roundtrip_witness :
    Sudoku.from_chars solvedGrid.display = some (.ok solvedGrid) :=
  display_parse_roundtrip solvedGrid (by decide)
